import Mathlib

/-!
Verification development for the dusk-network poseidon-merkle repository.

The definitions below are a shallow embedding of the Rust sources:
`src/lib.rs` (constants), `src/error.rs`, `src/big_merkle/merkle_range.rs`,
`src/big_merkle/merkle_coord.rs`, `src/big_merkle/mod.rs` and
`src/big_merkle/proof.rs`.  The two RocksDB key/value stores (`db`, `cache`)
are embedded as total maps from coordinates to optional leaves; the bincode
serialization layer is the identity in the model, and KV-level I/O errors
(which in Rust surface as `Error::Other`) cannot occur.  The Poseidon sponge
(`poseidon.rs` is not present under src/) and `MerkleCoord::descend` are
modelled from the specification, as marked in their doc comments.
-/

namespace Dusk

/-- Arity of the merkle tree (`MERKLE_ARITY` in lib.rs). -/
def MERKLE_ARITY : Nat := 4

/-- Poseidon state width (`WIDTH` in lib.rs); equals `MERKLE_ARITY + 1`. -/
def WIDTH : Nat := 5

/-- Number of full rounds (`FULL_ROUNDS` in lib.rs). -/
def FULL_ROUNDS : Nat := 8

/-- Number of partial rounds (`PARTIAL_ROUNDS` in lib.rs). -/
def PARTIAL_ROUNDS : Nat := 59

/-- Cache stride for the big merkle tree (`CACHE_HEIGHT_INTERVAL` in big_merkle/mod.rs). -/
def CACHE_HEIGHT_INTERVAL : Nat := 2

namespace ErrorRs

/-- The error enum exactly as declared in `src/error.rs` of this source tree:
it exposes the two kinds `FullBuffer` and `IndexOutOfBounds` only. -/
inductive Error where
  | FullBuffer : Error
  | IndexOutOfBounds : Error
  deriving DecidableEq, Fintype, Repr

end ErrorRs

/-- Modelled from the spec: the error surface of section 7 with four kinds
(`FullBuffer`, `IndexOutOfBounds`, `LeafNotFound`, `Other(message)`).  The file
`src/error.rs` present in the tree declares only the first two kinds, but the
in-tree callers (`merkle.rs` uses `Error::LeafNotFound`, `big_merkle` uses
`Error::Other`) require this four-kind shape, so the big-tree model uses it. -/
inductive Error where
  | FullBuffer : Error
  | IndexOutOfBounds : Error
  | LeafNotFound : Error
  | Other : String → Error
  deriving DecidableEq, Repr

/-- A half-open range of base-layer indices (`MerkleRange` in merkle_range.rs,
a newtype over `Range<usize>`); `lo` is `.0.start` and `hi` is `.0.end`. -/
structure MerkleRange where
  lo : Nat
  hi : Nat
  deriving DecidableEq, Repr

/-- The `PartialEq` impl of `MerkleRange`: `self == other` holds iff `other`
is contained in `self` (`self.0.start <= other.0.start && self.0.end >= other.0.end`).
Deliberately non-commutative in the source. -/
def MerkleRange.eq (a b : MerkleRange) : Bool :=
  decide (a.lo ≤ b.lo) && decide (a.hi ≥ b.hi)

/-- `MerkleRange::new(max_height, height, idx)`: the base range covered by the
node at `(height, idx)` in a tree of height `max_height`. -/
def MerkleRange.new (max_height height idx : Nat) : MerkleRange :=
  let h := max_height - height
  { lo := MERKLE_ARITY ^ h * idx, hi := MERKLE_ARITY ^ h * (idx + 1) }

/-- A coordinate inside the tree (`MerkleCoord` in merkle_coord.rs). -/
structure MerkleCoord where
  height : Nat
  idx : Nat
  deriving DecidableEq, Repr

/-- Modelled from the spec: `MerkleCoord::descend` is called from
`big_merkle/mod.rs` (`segments`, `modified`) but its definition is not in the
source tree.  Per section 4.4, ascending one level maps `(h, i)` to
`(h - 1, i / A)`; `descend s` performs `s` such steps (the subtraction
saturates at the root). -/
def MerkleCoord.descend (c : MerkleCoord) (s : Nat) : MerkleCoord :=
  { height := c.height - s, idx := c.idx / MERKLE_ARITY ^ s }

section Leaf

variable {F : Type} [CommRing F] [DecidableEq F]

/-- The sponge state vector of `WIDTH = 5` field elements, one field per
slot; slot 0 is the capacity element. -/
structure PState (F : Type) where
  s0 : F
  s1 : F
  s2 : F
  s3 : F
  s4 : F
  deriving DecidableEq, Repr

/-- Modelled from the spec: the Poseidon sponge state of section 4.1
(`poseidon.rs` is not present under src/).  `leaves` is the fixed-width state
of `WIDTH = 5` field elements, `pos` the insertion cursor in `[0, A]`. -/
structure Poseidon (F : Type) where
  leaves : PState F
  pos : Nat

/-- Modelled from the spec: a fresh sponge is all-zero with cursor 0. -/
def Poseidon.new : Poseidon F :=
  { leaves := { s0 := 0, s1 := 0, s2 := 0, s3 := 0, s4 := 0 }, pos := 0 }

/-- Modelled from the spec: `insert_unchecked(i, x)` writes `x` into
`state[1 + i]` and sets the cursor to `max(cursor, i + 1)`.  The index must
be below the arity (Rust panics on an out-of-range write; the model leaves
the state unchanged there). -/
def Poseidon.insert_unchecked (h : Poseidon F) (i : Nat) (x : F) : Poseidon F :=
  { leaves :=
      if i = 0 then { h.leaves with s1 := x }
      else if i = 1 then { h.leaves with s2 := x }
      else if i = 2 then { h.leaves with s3 := x }
      else if i = 3 then { h.leaves with s4 := x }
      else h.leaves
    pos := max h.pos (i + 1) }

/-- Modelled from the spec: `push(x)` fails with `FullBuffer` when the cursor
reached the arity, otherwise writes `x` at `state[cursor + 1]` and increments
the cursor. -/
def Poseidon.push (h : Poseidon F) (x : F) : Except Error (Poseidon F) :=
  if h.pos = MERKLE_ARITY then .error .FullBuffer
  else .ok (h.insert_unchecked h.pos x)

/-- Modelled from the spec: `replace(slice)` resets the sponge, then writes
every `Some(x)` of the slice at its own position, skipping `None` positions
(they keep the zero default, section 4.1; the verifier rationale of section
4.2 states that positions other than the overwritten one retain the sibling
values). -/
def Poseidon.replace (l : List (Option F)) : Poseidon F :=
  (l.foldl
    (fun acc ox =>
      match ox with
      | some x => (acc.1 + 1, acc.2.insert_unchecked acc.1 x)
      | none => (acc.1 + 1, acc.2))
    (0, Poseidon.new)).2

variable (ARK : Nat → F) (MDS : Fin 5 → Fin 5 → F)

/-- Modelled from the spec: one Poseidon round (section 4.1): add round
constants, apply the quintic S-box to the full state in a full round and to
slot 0 only in a partial round, then multiply by the MDS matrix.  Round `r`
is full iff it lies in the first or last `FULL_ROUNDS / 2` rounds. -/
def PoseidonRound (s : PState F) (r : Nat) : PState F :=
  let full : Bool := decide (r < FULL_ROUNDS / 2) || decide (FULL_ROUNDS / 2 + PARTIAL_ROUNDS ≤ r)
  let b0 := (s.s0 + ARK (r * WIDTH)) ^ 5
  let b1 := if full then (s.s1 + ARK (r * WIDTH + 1)) ^ 5 else s.s1 + ARK (r * WIDTH + 1)
  let b2 := if full then (s.s2 + ARK (r * WIDTH + 2)) ^ 5 else s.s2 + ARK (r * WIDTH + 2)
  let b3 := if full then (s.s3 + ARK (r * WIDTH + 3)) ^ 5 else s.s3 + ARK (r * WIDTH + 3)
  let b4 := if full then (s.s4 + ARK (r * WIDTH + 4)) ^ 5 else s.s4 + ARK (r * WIDTH + 4)
  { s0 := MDS 0 0 * b0 + MDS 0 1 * b1 + MDS 0 2 * b2 + MDS 0 3 * b3 + MDS 0 4 * b4
    s1 := MDS 1 0 * b0 + MDS 1 1 * b1 + MDS 1 2 * b2 + MDS 1 3 * b3 + MDS 1 4 * b4
    s2 := MDS 2 0 * b0 + MDS 2 1 * b1 + MDS 2 2 * b2 + MDS 2 3 * b3 + MDS 2 4 * b4
    s3 := MDS 3 0 * b0 + MDS 3 1 * b1 + MDS 3 2 * b2 + MDS 3 3 * b3 + MDS 3 4 * b4
    s4 := MDS 4 0 * b0 + MDS 4 1 * b1 + MDS 4 2 * b2 + MDS 4 3 * b3 + MDS 4 4 * b4 }

/-- Modelled from the spec: the full permutation runs
`FULL_ROUNDS + PARTIAL_ROUNDS` rounds in order. -/
def PoseidonPerm (s : PState F) : PState F :=
  (List.range (FULL_ROUNDS + PARTIAL_ROUNDS)).foldl (PoseidonRound ARK MDS) s

/-- Modelled from the spec: `hash()` runs the permutation on the current state
and returns `state[1]`, the first rate element. -/
def Poseidon.hash (h : Poseidon F) : F :=
  (PoseidonPerm ARK MDS h.leaves).s1

end Leaf

/-- One record of a big-tree proof (`BigProofItem` in big_merkle/proof.rs):
the position of the running child and the four sibling slots of its row. -/
structure BigProofItem (F : Type) where
  idx : Nat
  leaves : List (Option F)
  deriving DecidableEq, Repr

/-- A big-tree membership proof (`BigProof` in big_merkle/proof.rs, without
the feature-gated zero-knowledge fields). -/
structure BigProof (F : Type) where
  data : List (BigProofItem F)
  deriving DecidableEq, Repr

/-- `BigProof::new`. -/
def BigProof.new (data : List (BigProofItem F)) : BigProof F := { data := data }

/-- `BigProof::default`: a proof with an empty data sequence. -/
def BigProof.defaultProof : BigProof F := BigProof.new []

/-- `BigProof::push`. -/
def BigProof.push (p : BigProof F) (idx : Nat) (leaves : List (Option F)) : BigProof F :=
  { data := p.data ++ [BigProofItem.mk idx leaves] }

section BigTree

variable {F : Type} [CommRing F] [DecidableEq F]

/-- The record of store accesses a `node` call performs, used to state the
frame conditions of the two KV stores. -/
inductive Access where
  | dbRead : MerkleCoord → Access
  | dbWrite : MerkleCoord → Access
  | cacheRead : MerkleCoord → Access
  | cacheWrite : MerkleCoord → Access
  deriving DecidableEq, Repr

/-- The sparse persistent tree (`BigMerkleTree` in big_merkle/mod.rs).  The
two RocksDB stores are embedded as total maps from coordinates to optional
leaves; bincode serialization is dropped. -/
structure BigMerkleTree (F : Type) where
  width : Nat
  height : Nat
  max_idx : Nat
  empty_intervals : List MerkleRange
  db : MerkleCoord → Option F
  cache : MerkleCoord → Option F

/-- `BigMerkleTree::new`.  The source derives `height` from `width` with a
floating-point logarithm (`(width as f64).log(MERKLE_ARITY as f64) as usize`);
the model takes the height as a parameter (the spec makes `width` an exact
power of the arity a precondition, in which case the logarithm is exact).
Both stores start empty and the empty-interval index is seeded with the
relative range of the root, `MerkleRange::new(height, 0, 0)`. -/
def BigMerkleTree.new (width height : Nat) : BigMerkleTree F :=
  { width := width
    height := height
    max_idx := 0
    empty_intervals := [MerkleRange.new height 0 0]
    db := fun _ => none
    cache := fun _ => none }

/-- `BigMerkleTree::node_is_empty`: whether some member of `empty_intervals`
contains the base range of `(height, idx)` (`Vec::contains` applies the
asymmetric `PartialEq` of `MerkleRange` with the member on the left). -/
def BigMerkleTree.node_is_empty (t : BigMerkleTree F) (height idx : Nat) : Bool :=
  t.empty_intervals.any fun r => r.eq (MerkleRange.new t.height height idx)

/-- The `for (i, r) in iter().enumerate()` searches of inserted/removed keep
overwriting the result, so the LAST member satisfying the asymmetric equality
wins; `findLastFrom base l target` returns its enumeration index (counted
from `base`) together with the member, preferring matches further right. -/
def findLastFrom (target : MerkleRange) : Nat → List MerkleRange → Option (Nat × MerkleRange)
  | _, [] => none
  | base, r :: rest =>
    match findLastFrom target (base + 1) rest with
    | some x => some x
    | none => if r.eq target then some (base, r) else none

/-- The enumerate-and-overwrite loop of inserted/removed over the whole
interval list: the last match and its index. -/
def findLast (l : List MerkleRange) (target : MerkleRange) : Option (Nat × MerkleRange) :=
  findLastFrom target 0 l

/-- `BigMerkleTree::modified`, inner loop: ascend one level at a time,
deleting each ancestor coordinate from the cache, stopping after height 0.
The fuel equals the tree height, the number of ascents performed. -/
def modifiedLoop : Nat → BigMerkleTree F → MerkleCoord → BigMerkleTree F
  | 0, t, _ => t
  | fuel + 1, t, c =>
    let c1 := c.descend 1
    let t1 : BigMerkleTree F :=
      { t with cache := fun k => if k = c1 then none else t.cache k }
    if c1.height = 0 then t1 else modifiedLoop fuel t1 c1

/-- `BigMerkleTree::modified`: delete every strict ancestor of the base
coordinate `(height, idx)` from the cache.  (In the model the KV delete
cannot fail, so no error is produced.) -/
def BigMerkleTree.modified (t : BigMerkleTree F) (idx : Nat) : BigMerkleTree F :=
  modifiedLoop t.height t (MerkleCoord.mk t.height idx)

/-- `BigMerkleTree::inserted`: record `max_idx`, and if the base slot was
empty, split the LAST interval matching `[idx, idx+1)`: the matched slot is
overwritten with `[idx+1, E.hi)` unconditionally, and `[E.lo, idx)` is pushed
only when `idx > E.lo`.  Then invalidate the cached ancestors. -/
def BigMerkleTree.inserted (t : BigMerkleTree F) (idx : Nat) :
    Except Error (BigMerkleTree F) :=
  let t := { t with max_idx := max t.max_idx idx }
  if t.node_is_empty t.height idx then
    let idx_r : MerkleRange := { lo := idx, hi := idx + 1 }
    match findLast t.empty_intervals idx_r with
    | none => .error .IndexOutOfBounds
    | some (p, r1) =>
      let r2 : MerkleRange := { lo := idx + 1, hi := r1.hi }
      let l1 := t.empty_intervals.set p r2
      let l2 := if idx > r1.lo then l1 ++ [{ lo := r1.lo, hi := idx }] else l1
      .ok (BigMerkleTree.modified { t with empty_intervals := l2 } idx)
  else
    .ok (t.modified idx)

/-- `BigMerkleTree::insert`: persist the leaf at `(height, idx)` in the db,
then run `inserted`. -/
def BigMerkleTree.insert (t : BigMerkleTree F) (idx : Nat) (leaf : F) :
    Except Error (BigMerkleTree F) :=
  let c := MerkleCoord.mk t.height idx
  BigMerkleTree.inserted
    { t with db := fun k => if k = c then some leaf else t.db k } idx

/-- `BigMerkleTree::removed`: reorganize `empty_intervals` by adjacency, as
written in the source: with both neighbours empty, the LAST interval matching
`[idx-1, idx)` gets the `hi` of the LAST interval matching `[idx+1, idx+2)`
and the latter is removed; with only the left neighbour empty, that interval
is deleted when it is a singleton and otherwise has its `hi` decremented;
with only the right neighbour empty, its `lo` is incremented, then the
interval is deleted when it became a singleton and otherwise has its `lo`
incremented once more; with no empty neighbour, `[idx, idx+1)` is pushed.
Finally the cached ancestors are invalidated. -/
def BigMerkleTree.removed (t : BigMerkleTree F) (idx : Nat) :
    Except Error (BigMerkleTree F) :=
  let left := decide (idx > 0) && t.node_is_empty t.height (idx - 1)
  let right := decide (idx < t.width - 1) && t.node_is_empty t.height (idx + 1)
  if left && right then
    match findLast t.empty_intervals { lo := idx - 1, hi := idx },
        findLast t.empty_intervals { lo := idx + 1, hi := idx + 2 } with
    | some (pl, el), some (pr, er) =>
      let l1 := t.empty_intervals.set pl { lo := el.lo, hi := er.hi }
      let l2 := l1.eraseIdx pr
      .ok (BigMerkleTree.modified { t with empty_intervals := l2 } idx)
    | _, _ => .error .IndexOutOfBounds
  else if left then
    match findLast t.empty_intervals { lo := idx - 1, hi := idx } with
    | some (p, e) =>
      let l1 :=
        if e.hi = e.lo + 1 then t.empty_intervals.eraseIdx p
        else t.empty_intervals.set p { lo := e.lo, hi := e.hi - 1 }
      .ok (BigMerkleTree.modified { t with empty_intervals := l1 } idx)
    | none => .error .IndexOutOfBounds
  else if right then
    match findLast t.empty_intervals { lo := idx + 1, hi := idx + 2 } with
    | some (p, e) =>
      let e1 : MerkleRange := { lo := e.lo + 1, hi := e.hi }
      let l1 :=
        if e1.hi = e1.lo + 1 then (t.empty_intervals.set p e1).eraseIdx p
        else (t.empty_intervals.set p e1).set p { lo := e1.lo + 1, hi := e1.hi }
      .ok (BigMerkleTree.modified { t with empty_intervals := l1 } idx)
    | none => .error .IndexOutOfBounds
  else
    .ok (BigMerkleTree.modified
      { t with empty_intervals := t.empty_intervals ++ [{ lo := idx, hi := idx + 1 }] }
      idx)

/-- `BigMerkleTree::remove`: delete the base coordinate from the db, then run
`removed`. -/
def BigMerkleTree.remove (t : BigMerkleTree F) (idx : Nat) :
    Except Error (BigMerkleTree F) :=
  let c := MerkleCoord.mk t.height idx
  BigMerkleTree.removed
    { t with db := fun k => if k = c then none else t.db k } idx

/-- The child loop of `node`: for `i` in `0..MERKLE_ARITY`, fetch child `i`
with the threaded tree state through `go`, and write a present child into
the sponge at position `i` (an absent child is skipped). -/
def childrenFold
    (go : BigMerkleTree F → Nat → Option F × BigMerkleTree F × List Access)
    (init : BigMerkleTree F × Poseidon F × List Access) :
    BigMerkleTree F × Poseidon F × List Access :=
  (List.range MERKLE_ARITY).foldl
    (fun acc ii =>
      match go acc.1 ii with
      | (some n, t1, lg) => (t1, acc.2.1.insert_unchecked ii n, acc.2.2 ++ lg)
      | (none, t1, lg) => (t1, acc.2.1, acc.2.2 ++ lg))
    init

variable (ARK : Nat → F) (MDS : Fin 5 → Fin 5 → F)

/-- `BigMerkleTree::node`, with explicit recursion fuel (the Rust recursion
descends from `height` to the leaf layer `self.height`, so
`self.height + 1 - height` fuel suffices) and an access log for the two KV
stores.  At the leaf layer the db is read directly; an empty node yields the
zero leaf for interior heights; otherwise the cache is consulted when
`height % CACHE_HEIGHT_INTERVAL == 0`, the four children are fetched
recursively (a `Some` child is written into the sponge at its position, a
`None` child is skipped), the sponge is hashed, and the digest is written
back to the cache when it is a caching height. -/
def nodeAux : Nat → BigMerkleTree F → Nat → Nat →
    Option F × BigMerkleTree F × List Access
  | 0, t, _, _ => (none, t, [])
  | fuel + 1, t, height, idx =>
    if height = t.height then
      (t.db (MerkleCoord.mk height idx), t, [Access.dbRead (MerkleCoord.mk height idx)])
    else if t.node_is_empty height idx then
      (if height = t.height then none else some 0, t, [])
    else
      let coord := MerkleCoord.mk height idx
      let should_cache := decide (height % CACHE_HEIGHT_INTERVAL = 0)
      let cached := if should_cache then t.cache coord else none
      let log0 : List Access := if should_cache then [Access.cacheRead coord] else []
      match cached with
      | some v => (some v, t, log0)
      | none =>
        let needle := idx * MERKLE_ARITY
        let r := childrenFold
          (fun t1 ii => nodeAux fuel t1 (height + 1) (needle + ii))
          (t, Poseidon.new, log0)
        let v := Poseidon.hash ARK MDS r.2.1
        if should_cache then
          (some v,
            { r.1 with cache := fun k => if k = coord then some v else r.1.cache k },
            r.2.2 ++ [Access.cacheWrite coord])
        else
          (some v, r.1, r.2.2)

/-- `BigMerkleTree::node` at its call interface. -/
def BigMerkleTree.node (t : BigMerkleTree F) (height idx : Nat) :
    Option F × BigMerkleTree F × List Access :=
  nodeAux ARK MDS (t.height + 1 - height) t height idx

/-- `BigMerkleTree::proof`: walk the rows from the base upward; on each row
collect the four sibling nodes of the needle's block, record the needle's
position in its block, and divide the needle by the arity. -/
def BigMerkleTree.proof (t : BigMerkleTree F) (needle : Nat) :
    BigProof F × BigMerkleTree F :=
  let r := (List.range t.height).foldl
    (fun (acc : Nat × BigProof F × BigMerkleTree F) row =>
      let needle := acc.1
      let start := MERKLE_ARITY * (needle / MERKLE_ARITY)
      let idx := needle % MERKLE_ARITY
      let sib := (List.range MERKLE_ARITY).foldl
        (fun (a : List (Option F) × BigMerkleTree F) i =>
          let n := BigMerkleTree.node ARK MDS a.2 (a.2.height - row) (start + i)
          (a.1 ++ [n.1], n.2.1))
        ([], acc.2.2)
      (needle / MERKLE_ARITY, acc.2.1.push idx sib.1, sib.2))
    (needle, BigProof.new [], t)
  (r.2.1, r.2.2)

/-- `BigMerkleTree::segments`, inner loop: starting from
`(height, max_idx)`, repeatedly descend by the cache stride and enumerate
every index up to the descended one, while the height is positive.  The fuel
equals the starting height, which bounds the number of iterations. -/
def segmentsLoop : Nat → MerkleCoord → List MerkleCoord
  | 0, _ => []
  | fuel + 1, c =>
    if 0 < c.height then
      let c1 := c.descend CACHE_HEIGHT_INTERVAL
      ((List.range (c1.idx + 1)).map fun i => MerkleCoord.mk c1.height i)
        ++ segmentsLoop fuel c1
    else []

/-- `BigMerkleTree::segments`: the parallelizable path to the root. -/
def BigMerkleTree.segments (t : BigMerkleTree F) : List MerkleCoord :=
  segmentsLoop t.height (MerkleCoord.mk t.height t.max_idx)

/-- `BigMerkleTree::root`: warm the cache by fetching every segment
coordinate (the worker pool shares the two stores and is deterministic, so
the parallel warm-up is modelled by a sequential fold), then fetch
`node(0, 0)`; a `None` root is an `Error::Other`. -/
def BigMerkleTree.root (t : BigMerkleTree F) :
    Except Error F × BigMerkleTree F :=
  let t1 := t.segments.foldl
    (fun acc c => (BigMerkleTree.node ARK MDS acc c.height c.idx).2.1) t
  match BigMerkleTree.node ARK MDS t1 0 0 with
  | (some v, t2, _) => (.ok v, t2)
  | (none, t2, _) =>
    (.error (.Other "It was not possible to obtain the root node from the merkle tree."), t2)

/-- `BigProof::verify`: starting from the claimed leaf, for each record load
the sibling slots into a fresh sponge, overwrite position `idx` with the
running value, and hash; the proof verifies iff the final value equals the
claimed root. -/
def BigProof.verify (p : BigProof F) (leaf root : F) : Bool :=
  let final := p.data.foldl
    (fun acc item =>
      Poseidon.hash ARK MDS
        ((Poseidon.replace (item.leaves.take MERKLE_ARITY)).insert_unchecked item.idx acc))
    leaf
  decide (final = root)

end BigTree

/-- Two base ranges are disjoint as index sets: one ends before the other
starts, or one of them is degenerate. -/
def RangeDisj (a b : MerkleRange) : Prop :=
  a.hi ≤ b.lo ∨ b.hi ≤ a.lo ∨ a.hi ≤ a.lo ∨ b.hi ≤ b.lo

instance (a b : MerkleRange) : Decidable (RangeDisj a b) := by
  unfold RangeDisj
  infer_instance

/-- The per-access condition of the `node` frame claim: cache accesses happen
only at heights that are multiples of the cache stride, the db is only read
and only at the leaf layer `H`, and the db is never written. -/
def strideAccessOk (H : Nat) : Access → Bool
  | Access.dbRead c => decide (c.height = H)
  | Access.dbWrite _ => false
  | Access.cacheRead c => decide (c.height % CACHE_HEIGHT_INTERVAL = 0)
  | Access.cacheWrite c => decide (c.height % CACHE_HEIGHT_INTERVAL = 0)

/-! Concrete instantiation used by witnesses and counterexamples: the scalar
field is replaced by the small prime field with 103 elements (the Poseidon
parameters are inputs loaded from binary blobs, out of the core's scope, so
witnesses may pick any concrete table). -/

/-- A concrete round-constant table for witness evaluation. -/
def exARK : Nat → ZMod 103 := fun k => (k : ZMod 103) + 1

/-- A concrete MDS matrix for witness evaluation. -/
def exMDS : Fin 5 → Fin 5 → ZMod 103 := fun i j => if i = j then 2 else 1

/-- The width-4, height-1 sparse tree after the call sequence
`insert(1, 7); remove(0); insert(0, 13); remove(1)`.  The `remove(0)` call
(no neighbour of 0 is empty at that point) pushes a second copy of `[0, 1)`;
`insert(0, 13)` splits only the last copy, leaving a stale `[0, 1)` that still
marks the occupied index 0 as empty; `remove(1)` then merges that stale
interval with `[2, 4)` into `[0, 4)`, which covers the whole base although
leaf 0 is occupied. -/
def c1Tree : Except Error (BigMerkleTree (ZMod 103)) := do
  let t1 ← (BigMerkleTree.new 4 1).insert 1 7
  let t2 ← t1.remove 0
  let t3 ← t2.insert 0 13
  t3.remove 1

/-- The width-4, height-1 sparse tree after `insert(0, 5); remove(0)`. -/
def c2Tree : Except Error (BigMerkleTree (ZMod 103)) := do
  let t1 ← (BigMerkleTree.new 4 1).insert 0 5
  t1.remove 0

/-- The width-16, height-2 sparse tree after `insert(3); insert(5);
remove(4)`: the remove hits the no-empty-neighbour branch although index 4
is already inside a listed interval, pushing a duplicate `[4, 5)`. -/
def c2DupTree : Except Error (BigMerkleTree (ZMod 103)) := do
  let t1 ← (BigMerkleTree.new 16 2).insert 3 5
  let t2 ← t1.insert 5 5
  t2.remove 4

/-- The width-4, height-1 sparse tree after `insert(3, 5); remove(3)`. -/
def c3Tree : Except Error (BigMerkleTree (ZMod 103)) := do
  let t1 ← (BigMerkleTree.new 4 1).insert 3 5
  t1.remove 3

set_option maxRecDepth 200000 in
/-- C1: after the reachable call sequence of `c1Tree` the base index 0 is
occupied by the leaf 13 (it was inserted by `insert(0, 13)` and never removed
afterwards), yet `T.proof(0).verify(13, T.root())` returns `false`: the
claimed universal verification property fails on the code.  The removal
bookkeeping corrupts `empty_intervals` until the root range itself counts as
empty, so `root()` returns the zero element while the proof rows carry the
stored leaf. -/
theorem c1_occupied_proof_fails_to_verify :
    (do
      let t ← c1Tree
      let pr := BigMerkleTree.proof exARK exMDS t 0
      let rt ← (BigMerkleTree.root exARK exMDS pr.2).1
      pure (t.db (MerkleCoord.mk 1 0), BigProof.verify exARK exMDS pr.1 13 rt)).toOption
      = some (some 13, false) := by
  decide

/-- C2: both parts of the empty-interval partition invariant fail on the
code.  After `insert(0, 5); remove(0)` on a fresh width-4 tree every base
index is unoccupied (all four db slots are `none`), but `empty_intervals` is
`[[3, 4)]`: its union does not contain the removed index 0 (nor 1 or 2).
And after `insert(3); insert(5); remove(4)` on a width-16 tree the
collection holds the interval `[4, 5)` twice, so its members are not
pairwise disjoint. -/
theorem c2_empty_interval_union_broken :
    (c2Tree.map fun t =>
      (t.empty_intervals,
        [t.db (MerkleCoord.mk 1 0), t.db (MerkleCoord.mk 1 1),
          t.db (MerkleCoord.mk 1 2), t.db (MerkleCoord.mk 1 3)],
        t.empty_intervals.any fun E => decide (E.lo ≤ 0) && decide (0 < E.hi))).toOption
      = some ([MerkleRange.mk 3 4], [none, none, none, none], false)
      ∧ (c2DupTree.map fun t =>
          (t.empty_intervals, decide (t.empty_intervals.Pairwise RangeDisj))).toOption
        = some ([MerkleRange.mk 6 16, MerkleRange.mk 0 3,
            MerkleRange.mk 4 5, MerkleRange.mk 4 5], false) := by
  constructor
  · decide
  · decide

/-- C3: both single-neighbour branches of `removed` move the adjacent
interval the wrong way.  Right neighbour only (`c2Tree`): the interval
`[1, 4)` should become `[0, 4)`, but the code increments its `lo` twice,
leaving `[3, 4)`, and `node_is_empty(H, 0)` stays false.  Left neighbour only
(`c3Tree`): the interval `[0, 3)` should become `[0, 4)`, but the code
decrements its `hi`, leaving `[0, 2)`, and `node_is_empty(H, 3)` stays
false. -/
theorem c3_removed_shrinks_adjacent_interval :
    (c2Tree.map fun t => (t.empty_intervals, t.node_is_empty 1 0)).toOption
        = some ([MerkleRange.mk 3 4], false)
      ∧ (c3Tree.map fun t => (t.empty_intervals, t.node_is_empty 1 3)).toOption
        = some ([MerkleRange.mk 4 4, MerkleRange.mk 0 2], false) := by
  constructor
  · decide
  · decide

/-- C4, counterexample: inserting at index 3 of a fresh width-4 tree splits
the seed interval `[0, 4)`; the claim says the right piece `[4, 4)` is kept
only when `i + 1 < E.hi` and that no degenerate range remains, but the code
keeps it unconditionally: the resulting collection is `[[4, 4), [0, 3)]` and
contains a degenerate range. -/
theorem c4_degenerate_range_remains :
    (((BigMerkleTree.new 4 1 : BigMerkleTree (ZMod 103)).inserted 3).map
        (fun t => t.empty_intervals)).toOption = some [MerkleRange.mk 4 4, MerkleRange.mk 0 3]
      ∧ ([MerkleRange.mk 4 4, MerkleRange.mk 0 3].any fun E => decide (E.hi ≤ E.lo)) = true := by
  constructor
  · decide
  · decide

/-- C9, counterexample: the error enum declared in `src/error.rs` does not
have four kinds. -/
theorem c9_error_not_four_kinds : Fintype.card ErrorRs.Error ≠ 4 := by
  decide

/-- C9, amended: `src/error.rs` exposes exactly the two kinds `FullBuffer`
and `IndexOutOfBounds` (the `LeafNotFound` and `Other` kinds referenced by
`merkle.rs` and `big_merkle` belong to a later revision of the file). -/
theorem c9_error_exactly_two_kinds :
    Fintype.card ErrorRs.Error = 2
      ∧ ∀ e : ErrorRs.Error,
          e = ErrorRs.Error.FullBuffer ∨ e = ErrorRs.Error.IndexOutOfBounds := by
  constructor
  · decide
  · decide

/-- C6: `node_is_empty(h, i)` holds iff some member of `empty_intervals`
covers the base range `[i * A^(H-h), (i+1) * A^(H-h))` under the asymmetric
containment predicate `E.lo ≤ R.lo ∧ E.hi ≥ R.hi` (the predicate the source
spells as `PartialEq` on `MerkleRange`). -/
theorem c6_node_is_empty_iff_covered {F : Type} (t : BigMerkleTree F) (h i : Nat) :
    t.node_is_empty h i = true ↔
      ∃ E ∈ t.empty_intervals,
        E.lo ≤ i * MERKLE_ARITY ^ (t.height - h)
          ∧ E.hi ≥ (i + 1) * MERKLE_ARITY ^ (t.height - h) := by
  simp only [BigMerkleTree.node_is_empty, List.any_eq_true, MerkleRange.eq,
    MerkleRange.new, Bool.and_eq_true, decide_eq_true_eq, ge_iff_le]
  constructor
  · rintro ⟨E, hE, h1, h2⟩
    exact ⟨E, hE, by rw [Nat.mul_comm]; exact h1, by rw [Nat.mul_comm]; exact h2⟩
  · rintro ⟨E, hE, h1, h2⟩
    exact ⟨E, hE, by rw [Nat.mul_comm]; exact h1, by rw [Nat.mul_comm]; exact h2⟩

/-- C6, witness: the statement applied to a fresh width-4 tree. -/
theorem c6_witness :
    (BigMerkleTree.new 4 1 : BigMerkleTree (ZMod 103)).node_is_empty 1 2 = true ↔
      ∃ E ∈ (BigMerkleTree.new 4 1 : BigMerkleTree (ZMod 103)).empty_intervals,
        E.lo ≤ 2 * MERKLE_ARITY ^ ((BigMerkleTree.new 4 1 : BigMerkleTree (ZMod 103)).height - 1)
          ∧ E.hi ≥ (2 + 1) * MERKLE_ARITY ^ ((BigMerkleTree.new 4 1 : BigMerkleTree (ZMod 103)).height - 1) :=
  c6_node_is_empty_iff_covered (BigMerkleTree.new 4 1) 1 2

/-- C10: verifying a big proof with an empty data sequence compares the
claimed leaf directly with the root: it returns true exactly when they are
equal, so the empty proof certifies any leaf equal to the root. -/
theorem c10_empty_proof_verifies_iff_leaf_eq_root {F : Type} [CommRing F] [DecidableEq F]
    (ARK : Nat → F) (MDS : Fin 5 → Fin 5 → F) (p : BigProof F) (hp : p.data = [])
    (l r : F) :
    (BigProof.verify ARK MDS p l r = true) ↔ l = r := by
  unfold BigProof.verify
  rw [hp]
  simp

/-- C10, witness: the default proof has empty data, and the statement applied
to it at equal leaf and root values. -/
theorem c10_witness :
    (BigProof.defaultProof : BigProof (ZMod 103)).data = []
      ∧ ((BigProof.verify exARK exMDS BigProof.defaultProof (5 : ZMod 103) 5 = true) ↔
          (5 : ZMod 103) = 5) :=
  ⟨rfl, c10_empty_proof_verifies_iff_leaf_eq_root exARK exMDS BigProof.defaultProof rfl 5 5⟩

/-- The cache-invalidation loop touches only the cache store. -/
theorem modifiedLoop_fields {F : Type} :
    ∀ (fuel : Nat) (t : BigMerkleTree F) (c : MerkleCoord),
      (modifiedLoop fuel t c).width = t.width
        ∧ (modifiedLoop fuel t c).height = t.height
        ∧ (modifiedLoop fuel t c).max_idx = t.max_idx
        ∧ (modifiedLoop fuel t c).empty_intervals = t.empty_intervals
        ∧ (modifiedLoop fuel t c).db = t.db := by
  intro fuel
  induction fuel with
  | zero => intro t c; simp [modifiedLoop]
  | succ n ih =>
    intro t c
    simp only [modifiedLoop]
    by_cases hc : (c.descend 1).height = 0
    · simp [hc]
    · simpa [hc] using ih _ _

/-- `modified` touches only the cache store. -/
theorem modified_fields {F : Type} (t : BigMerkleTree F) (idx : Nat) :
    (t.modified idx).width = t.width
      ∧ (t.modified idx).height = t.height
      ∧ (t.modified idx).max_idx = t.max_idx
      ∧ (t.modified idx).empty_intervals = t.empty_intervals
      ∧ (t.modified idx).db = t.db :=
  modifiedLoop_fields t.height t (MerkleCoord.mk t.height idx)

/-- C7: for an interior coordinate (`h < height`) that is empty, `node`
returns the zero leaf; at the leaf layer (`h = height`) it returns the db
lookup, which is `None` exactly when the leaf is absent. -/
theorem c7_node_empty_zero_and_leaf_db {F : Type} [CommRing F] [DecidableEq F]
    (ARK : Nat → F) (MDS : Fin 5 → Fin 5 → F) (t : BigMerkleTree F) (h i j : Nat)
    (h1 : h < t.height) (h2 : t.node_is_empty h i = true) :
    (BigMerkleTree.node ARK MDS t h i).1 = some 0
      ∧ (BigMerkleTree.node ARK MDS t t.height j).1 = t.db (MerkleCoord.mk t.height j) := by
  constructor
  · unfold BigMerkleTree.node
    obtain ⟨m, hm⟩ : ∃ m, t.height + 1 - h = m + 1 := ⟨t.height - h, by omega⟩
    rw [hm]
    simp only [nodeAux]
    rw [if_neg (by omega : ¬ h = t.height)]
    rw [if_pos h2]
    simp [if_neg (by omega : ¬ h = t.height)]
  · unfold BigMerkleTree.node
    have hm : t.height + 1 - t.height = 0 + 1 := by omega
    rw [hm]
    simp [nodeAux]

/-- C7, witness: on a fresh width-4 height-1 tree the root coordinate is
empty, so `node(0, 0)` is the zero leaf, and the leaf layer reads the db. -/
theorem c7_witness :
    (0 < (BigMerkleTree.new 4 1 : BigMerkleTree (ZMod 103)).height)
      ∧ ((BigMerkleTree.node exARK exMDS (BigMerkleTree.new 4 1) 0 0).1 = some 0
        ∧ (BigMerkleTree.node exARK exMDS (BigMerkleTree.new 4 1) (BigMerkleTree.new 4 1 : BigMerkleTree (ZMod 103)).height 2).1
            = (BigMerkleTree.new 4 1 : BigMerkleTree (ZMod 103)).db
                (MerkleCoord.mk (BigMerkleTree.new 4 1 : BigMerkleTree (ZMod 103)).height 2)) :=
  ⟨by decide,
    c7_node_empty_zero_and_leaf_db exARK exMDS (BigMerkleTree.new 4 1) 0 0 2
      (by decide) (by decide)⟩

/-- The child loop preserves the db, keeps the height, and only appends
stride-respecting accesses to the log, provided the child fetches do. -/
theorem childrenFold_frame {F : Type}
    (go : BigMerkleTree F → Nat → Option F × BigMerkleTree F × List Access) (H : Nat)
    (hgo : ∀ t1 ii, t1.height = H →
        (go t1 ii).2.1.db = t1.db ∧ (go t1 ii).2.1.height = t1.height
          ∧ (go t1 ii).2.2.all (strideAccessOk H) = true) :
    ∀ (init : BigMerkleTree F × Poseidon F × List Access),
      init.1.height = H → init.2.2.all (strideAccessOk H) = true →
        (childrenFold go init).1.db = init.1.db
          ∧ (childrenFold go init).1.height = H
          ∧ (childrenFold go init).2.2.all (strideAccessOk H) = true := by
  unfold childrenFold
  generalize List.range MERKLE_ARITY = li
  induction li with
  | nil => intro init h1 h2; exact ⟨rfl, h1, h2⟩
  | cons x xs ihl =>
    intro init h1 h2
    simp only [List.foldl_cons]
    obtain ⟨g1, g2, g3⟩ := hgo init.1 x h1
    rcases hgx : go init.1 x with ⟨v, t1, lg⟩
    rw [hgx] at g1 g2 g3
    cases v with
    | some n =>
      have hres := ihl (t1, init.2.1.insert_unchecked x n, init.2.2 ++ lg)
        (g2.trans h1) (by simp [List.all_append, h2, g3])
      exact ⟨hres.1.trans g1, hres.2.1, hres.2.2⟩
    | none =>
      have hres := ihl (t1, init.2.1, init.2.2 ++ lg)
        (g2.trans h1) (by simp [List.all_append, h2, g3])
      exact ⟨hres.1.trans g1, hres.2.1, hres.2.2⟩

/-- Every store access of `nodeAux` satisfies the stride condition, and the
db map is left untouched. -/
theorem nodeAux_frame {F : Type} [CommRing F] [DecidableEq F]
    (ARK : Nat → F) (MDS : Fin 5 → Fin 5 → F) :
    ∀ (fuel : Nat) (t : BigMerkleTree F) (h i : Nat),
      (nodeAux ARK MDS fuel t h i).2.1.db = t.db
        ∧ (nodeAux ARK MDS fuel t h i).2.1.height = t.height
        ∧ (nodeAux ARK MDS fuel t h i).2.2.all (strideAccessOk t.height) = true := by
  intro fuel
  induction fuel with
  | zero => intro t h i; simp [nodeAux]
  | succ n ih =>
    intro t h i
    by_cases h1 : h = t.height
    · simp [nodeAux, h1, strideAccessOk]
    · by_cases h2 : t.node_is_empty h i = true
      · simp [nodeAux, h1, h2]
      · have hgo : ∀ (t1 : BigMerkleTree F) ii, t1.height = t.height →
            (nodeAux ARK MDS n t1 (h + 1) (i * MERKLE_ARITY + ii)).2.1.db = t1.db
              ∧ (nodeAux ARK MDS n t1 (h + 1) (i * MERKLE_ARITY + ii)).2.1.height = t1.height
              ∧ (nodeAux ARK MDS n t1 (h + 1) (i * MERKLE_ARITY + ii)).2.2.all
                  (strideAccessOk t.height) = true := by
          intro t1 ii hh
          obtain ⟨a, b, c⟩ := ih t1 (h + 1) (i * MERKLE_ARITY + ii)
          exact ⟨a, b, hh ▸ c⟩
        by_cases h3 : h % CACHE_HEIGHT_INTERVAL = 0
        · cases hc : t.cache (MerkleCoord.mk h i) with
          | some v => simp [nodeAux, h1, h2, h3, hc, strideAccessOk]
          | none =>
            have hcf := childrenFold_frame
              (fun t1 ii => nodeAux ARK MDS n t1 (h + 1) (i * MERKLE_ARITY + ii)) t.height
              hgo
              (t, Poseidon.new, [Access.cacheRead (MerkleCoord.mk h i)]) rfl
              (by simp [strideAccessOk, h3])
            simp only [nodeAux, h1, h2, h3, hc]
            simp only [if_neg h1, Bool.not_eq_true] at *
            simp [h2, h3, hc, List.all_append, strideAccessOk, hcf.1, hcf.2.1, hcf.2.2]
        · have hcf := childrenFold_frame
            (fun t1 ii => nodeAux ARK MDS n t1 (h + 1) (i * MERKLE_ARITY + ii)) t.height
            hgo
            (t, Poseidon.new, []) rfl (by simp)
          simp [nodeAux, h1, h2, h3, List.all_append, strideAccessOk,
            hcf.1, hcf.2.1, hcf.2.2]

/-- C8: during any `node(h, i)` call, every cache access (read or write)
happens at a height that is a multiple of `CACHE_HEIGHT_INTERVAL = 2`, the
db is read only at the leaf layer, and the db store is never written (its
map is unchanged and no db write is logged). -/
theorem c8_node_store_accesses {F : Type} [CommRing F] [DecidableEq F]
    (ARK : Nat → F) (MDS : Fin 5 → Fin 5 → F) (t : BigMerkleTree F) (h i : Nat) :
    (BigMerkleTree.node ARK MDS t h i).2.2.all (strideAccessOk t.height) = true
      ∧ (BigMerkleTree.node ARK MDS t h i).2.1.db = t.db := by
  obtain ⟨a, b, c⟩ := nodeAux_frame ARK MDS (t.height + 1 - h) t h i
  exact ⟨c, a⟩


/-- Unfolding of the asymmetric range containment predicate. -/
theorem MerkleRange.eq_true_iff (a b : MerkleRange) :
    a.eq b = true ↔ a.lo ≤ b.lo ∧ b.hi ≤ a.hi := by
  simp [MerkleRange.eq, ge_iff_le]

/-- At the leaf layer the covered range of index `i` is `[i, i+1)`. -/
theorem rangeNew_self (H i : Nat) : MerkleRange.new H H i = MerkleRange.mk i (i + 1) := by
  simp [MerkleRange.new, MERKLE_ARITY]

/-- The overwrite loop yields nothing when no member matches. -/
theorem findLastFrom_eq_none (target : MerkleRange) :
    ∀ (l : List MerkleRange) (base : Nat),
      (∀ r ∈ l, r.eq target = false) → findLastFrom target base l = none := by
  intro l
  induction l with
  | nil => intro base _; simp [findLastFrom]
  | cons r rest ihl =>
    intro base hall
    simp only [findLastFrom]
    rw [ihl (base + 1) fun x hx => hall x (List.mem_cons_of_mem _ hx)]
    simp [hall r (List.mem_cons_self r rest)]

/-- When exactly one position matches, the overwrite loop returns it. -/
theorem findLastFrom_eq_of_unique (target : MerkleRange) :
    ∀ (l : List MerkleRange) (base p : Nat) (E : MerkleRange),
      l[p]? = some E → E.eq target = true →
      (∀ q E', l[q]? = some E' → E'.eq target = true → q = p) →
      findLastFrom target base l = some (base + p, E) := by
  intro l
  induction l with
  | nil => intro base p E hp; simp at hp
  | cons r rest ihl =>
    intro base p E hp hE hu
    cases p with
    | zero =>
      have hr : r = E := by simpa using hp
      subst hr
      have hrest : ∀ x ∈ rest, x.eq target = false := by
        intro x hx
        by_contra hxx
        obtain ⟨q, hq⟩ := List.mem_iff_getElem?.1 hx
        have := hu (q + 1) x (by simpa using hq) (by simpa using hxx)
        omega
      simp only [findLastFrom]
      rw [findLastFrom_eq_none target rest (base + 1) hrest]
      simp [hE]
    | succ q =>
      have hq : rest[q]? = some E := by simpa using hp
      have hu' : ∀ q' E', rest[q']? = some E' → E'.eq target = true → q' = q := by
        intro q' E' hq' hE'
        have := hu (q' + 1) E' (by simpa using hq') hE'
        omega
      simp only [findLastFrom]
      rw [ihl (base + 1) q E hq hE hu']
      have : base + 1 + q = base + (q + 1) := by omega
      rw [this]

/-- `findLast` at the unique matching position. -/
theorem findLast_eq_of_unique (l : List MerkleRange) (target : MerkleRange) (p : Nat)
    (E : MerkleRange) (hp : l[p]? = some E) (hE : E.eq target = true)
    (hu : ∀ q E', l[q]? = some E' → E'.eq target = true → q = p) :
    findLast l target = some (p, E) := by
  have := findLastFrom_eq_of_unique target l 0 p E hp hE hu
  simpa [findLast] using this

/-- In a pairwise-disjoint interval list, at most one position contains a
given base index. -/
theorem pairwise_unique_cover (l : List MerkleRange) (hd : l.Pairwise RangeDisj)
    (j p q : Nat) (Ep Eq2 : MerkleRange)
    (hp : l[p]? = some Ep) (hq : l[q]? = some Eq2)
    (hcp : Ep.lo ≤ j ∧ j < Ep.hi) (hcq : Eq2.lo ≤ j ∧ j < Eq2.hi) : p = q := by
  by_contra hne
  obtain ⟨hplen, hpe⟩ := List.getElem?_eq_some.1 hp
  obtain ⟨hqlen, hqe⟩ := List.getElem?_eq_some.1 hq
  rcases Nat.lt_or_ge p q with hlt | hge
  · have hdisj := List.pairwise_iff_getElem.1 hd p q hplen hqlen hlt
    rw [hpe, hqe] at hdisj
    rcases hdisj with h | h | h | h <;> omega
  · have hlt : q < p := by omega
    have hdisj := List.pairwise_iff_getElem.1 hd q p hqlen hplen hlt
    rw [hpe, hqe] at hdisj
    rcases hdisj with h | h | h | h <;> omega

/-- Characterization of `inserted` on an empty slot: the last interval
matching `[i, i+1)` is replaced by `[i+1, E.hi)` and `[E.lo, i)` is appended
when nonempty; everything but the cache and `max_idx` is preserved. -/
theorem inserted_ok {F : Type} (t : BigMerkleTree F) (i p : Nat) (E : MerkleRange)
    (hne : t.node_is_empty t.height i = true)
    (hfl : findLast t.empty_intervals (MerkleRange.mk i (i + 1)) = some (p, E)) :
    ∃ t', t.inserted i = .ok t'
      ∧ t'.empty_intervals
          = (t.empty_intervals.set p (MerkleRange.mk (i + 1) E.hi))
              ++ (if E.lo < i then [MerkleRange.mk E.lo i] else [])
      ∧ t'.height = t.height ∧ t'.width = t.width ∧ t'.db = t.db
      ∧ t'.max_idx = max t.max_idx i := by
  simp only [BigMerkleTree.inserted]
  have hcond : ({ t with max_idx := max t.max_idx i } : BigMerkleTree F).node_is_empty
      ({ t with max_idx := max t.max_idx i } : BigMerkleTree F).height i = true := hne
  rw [if_pos hcond]
  rw [show ({ t with max_idx := max t.max_idx i } : BigMerkleTree F).empty_intervals
      = t.empty_intervals from rfl, hfl]
  refine ⟨_, rfl, ?_, ?_, ?_, ?_, ?_⟩
  · rw [(modified_fields _ _).2.2.2.1]
    by_cases hlo : E.lo < i
    · simp only [show (i > E.lo) = (E.lo < i) from rfl, if_pos hlo]
    · simp only [show (i > E.lo) = (E.lo < i) from rfl, if_neg hlo, List.append_nil]
  · exact (modified_fields _ _).2.1
  · exact (modified_fields _ _).1
  · exact (modified_fields _ _).2.2.2.2
  · exact (modified_fields _ _).2.2.1

/-- Characterization of `removed` when both neighbours are empty: the last
interval matching `[i-1, i)` absorbs the `hi` of the last interval matching
`[i+1, i+2)`, which is removed. -/
theorem removed_both_ok {F : Type} (t : BigMerkleTree F) (i pl pr : Nat)
    (el er : MerkleRange)
    (h0 : 0 < i) (hW : i < t.width - 1)
    (hle : t.node_is_empty t.height (i - 1) = true)
    (hre : t.node_is_empty t.height (i + 1) = true)
    (hfl : findLast t.empty_intervals (MerkleRange.mk (i - 1) i) = some (pl, el))
    (hfr : findLast t.empty_intervals (MerkleRange.mk (i + 1) (i + 2)) = some (pr, er)) :
    ∃ t', t.removed i = .ok t'
      ∧ t'.empty_intervals = (t.empty_intervals.set pl (MerkleRange.mk el.lo er.hi)).eraseIdx pr
      ∧ t'.height = t.height ∧ t'.width = t.width ∧ t'.db = t.db
      ∧ t'.max_idx = t.max_idx := by
  simp only [BigMerkleTree.removed]
  rw [if_pos (by simp [h0, hW, hle, hre] : ((decide (i > 0) && t.node_is_empty t.height (i - 1))
      && (decide (i < t.width - 1) && t.node_is_empty t.height (i + 1))) = true)]
  rw [hfl, hfr]
  refine ⟨_, rfl, ?_, ?_, ?_, ?_, ?_⟩
  · exact (modified_fields _ _).2.2.2.1
  · exact (modified_fields _ _).2.1
  · exact (modified_fields _ _).1
  · exact (modified_fields _ _).2.2.2.2
  · exact (modified_fields _ _).2.2.1

/-- C4, amended: with a pairwise-disjoint interval index, `inserted(i)` on an
empty base slot replaces the unique interval `E` containing `[i, i+1)` by the
piece `[i+1, E.hi)` unconditionally (kept even when degenerate, i.e. when
`i + 1 = E.hi`) and appends the piece `[E.lo, i)` exactly when `i > E.lo`;
degenerate ranges may remain in the collection. -/
theorem c4_inserted_splits_with_degenerate_right {F : Type} (t : BigMerkleTree F) (i : Nat)
    (hdisj : t.empty_intervals.Pairwise RangeDisj)
    (hemp : t.node_is_empty t.height i = true) :
    ∃ p E, t.empty_intervals[p]? = some E
      ∧ E.eq (MerkleRange.mk i (i + 1)) = true
      ∧ (∀ q E', t.empty_intervals[q]? = some E' →
          E'.eq (MerkleRange.mk i (i + 1)) = true → q = p)
      ∧ ∃ t', t.inserted i = .ok t'
        ∧ t'.empty_intervals
            = (t.empty_intervals.set p (MerkleRange.mk (i + 1) E.hi))
                ++ (if E.lo < i then [MerkleRange.mk E.lo i] else []) := by
  have hany : t.empty_intervals.any (fun r => r.eq (MerkleRange.mk i (i + 1))) = true := by
    have := hemp
    unfold BigMerkleTree.node_is_empty at this
    rwa [rangeNew_self] at this
  obtain ⟨E, hEmem, hEeq⟩ := List.any_eq_true.1 hany
  obtain ⟨p, hp⟩ := List.mem_iff_getElem?.1 hEmem
  have huniq : ∀ q E', t.empty_intervals[q]? = some E' →
      E'.eq (MerkleRange.mk i (i + 1)) = true → q = p := by
    intro q E' hq hq'
    refine pairwise_unique_cover _ hdisj i q p E' E hq hp ?_ ?_
    · rw [MerkleRange.eq_true_iff] at hq'
      simp only at hq'
      omega
    · rw [MerkleRange.eq_true_iff] at hEeq
      simp only at hEeq
      omega
  have hfl := findLast_eq_of_unique _ _ p E hp hEeq huniq
  obtain ⟨t', ht'⟩ := inserted_ok t i p E hemp hfl
  exact ⟨p, E, hp, hEeq, huniq, t', ht'.1, ht'.2.1⟩

/-- C4, witness: the amended split statement applied to a fresh width-4 tree
at index 2. -/
theorem c4_amended_split_witness :
    (BigMerkleTree.new 4 1 : BigMerkleTree (ZMod 103)).empty_intervals.Pairwise RangeDisj
      ∧ (BigMerkleTree.new 4 1 : BigMerkleTree (ZMod 103)).node_is_empty
          (BigMerkleTree.new 4 1 : BigMerkleTree (ZMod 103)).height 2 = true
      ∧ (∃ p E, (BigMerkleTree.new 4 1 : BigMerkleTree (ZMod 103)).empty_intervals[p]? = some E
          ∧ E.eq (MerkleRange.mk 2 (2 + 1)) = true
          ∧ (∀ q E', (BigMerkleTree.new 4 1 : BigMerkleTree (ZMod 103)).empty_intervals[q]? = some E' →
              E'.eq (MerkleRange.mk 2 (2 + 1)) = true → q = p)
          ∧ ∃ t', (BigMerkleTree.new 4 1 : BigMerkleTree (ZMod 103)).inserted 2 = .ok t'
            ∧ t'.empty_intervals
                = ((BigMerkleTree.new 4 1 : BigMerkleTree (ZMod 103)).empty_intervals.set p
                      (MerkleRange.mk (2 + 1) E.hi))
                    ++ (if E.lo < 2 then [MerkleRange.mk E.lo 2] else [])) :=
  ⟨by decide, by decide,
    c4_inserted_splits_with_degenerate_right (BigMerkleTree.new 4 1) 2 (by decide) (by decide)⟩

/-- Overwriting the appended last element of a list. -/
theorem set_append_length {α : Type} (A : List α) (x y : α) :
    (A ++ [x]).set A.length y = A ++ [y] := by
  rw [List.set_append]
  simp

/-- C5: on a tree whose pairwise-disjoint `empty_intervals` contains the span
`[lo, hi)` within the width, for an index strictly inside the span,
`inserted(i)` followed by `removed(i)` leaves a collection that contains
`[lo, hi)` and in which every member covering `[lo, hi)` is `[lo, hi)`
itself: a single interval covering the original span. -/
theorem c5_insert_then_remove_round_trips {F : Type} (t : BigMerkleTree F)
    (lo hi i : Nat)
    (hmem : MerkleRange.mk lo hi ∈ t.empty_intervals)
    (hdisj : t.empty_intervals.Pairwise RangeDisj)
    (h1 : lo < i) (h2 : i + 1 < hi) (h3 : hi ≤ t.width) :
    ∃ t1 t2, t.inserted i = .ok t1 ∧ t1.removed i = .ok t2
      ∧ MerkleRange.mk lo hi ∈ t2.empty_intervals
      ∧ ∀ E ∈ t2.empty_intervals, E.eq (MerkleRange.mk lo hi) = true →
          E = MerkleRange.mk lo hi := by
  obtain ⟨p, hp⟩ := List.mem_iff_getElem?.1 hmem
  have hplen : p < t.empty_intervals.length := (List.getElem?_eq_some.1 hp).1
  have hE0eq : (MerkleRange.mk lo hi).eq (MerkleRange.mk i (i + 1)) = true := by
    rw [MerkleRange.eq_true_iff]
    constructor <;> [skip; skip] <;> simp only <;> omega
  have hemp : t.node_is_empty t.height i = true := by
    unfold BigMerkleTree.node_is_empty
    rw [rangeNew_self]
    exact List.any_eq_true.2 ⟨MerkleRange.mk lo hi, hmem, hE0eq⟩
  have huniq : ∀ q E', t.empty_intervals[q]? = some E' →
      E'.eq (MerkleRange.mk i (i + 1)) = true → q = p := by
    intro q E' hq hq'
    refine pairwise_unique_cover _ hdisj i q p E' (MerkleRange.mk lo hi) hq hp ?_ ?_
    · rw [MerkleRange.eq_true_iff] at hq'
      simp only at hq'
      omega
    · simp only
      omega
  have hfl := findLast_eq_of_unique _ _ p (MerkleRange.mk lo hi) hp hE0eq huniq
  obtain ⟨t1, ht1ok, ht1l, ht1h, ht1w, _, _⟩ := inserted_ok t i p (MerkleRange.mk lo hi) hemp hfl
  rw [if_pos (show (MerkleRange.mk lo hi).lo < i from h1)] at ht1l
  simp only at ht1l
  have hlen1 : (t.empty_intervals.set p (MerkleRange.mk (i + 1) hi)).length
      = t.empty_intervals.length := List.length_set _ _ _
  have hL1last : (t.empty_intervals.set p (MerkleRange.mk (i + 1) hi)
      ++ [MerkleRange.mk lo i])[t.empty_intervals.length]? = some (MerkleRange.mk lo i) := by
    rw [← hlen1]
    exact List.getElem?_concat_length _ _
  have hL1p : (t.empty_intervals.set p (MerkleRange.mk (i + 1) hi)
      ++ [MerkleRange.mk lo i])[p]? = some (MerkleRange.mk (i + 1) hi) := by
    rw [List.getElem?_append, if_pos (by rw [hlen1]; exact hplen), List.getElem?_set]
    simp [hplen]
  have hmemb : ∀ q E', (t.empty_intervals.set p (MerkleRange.mk (i + 1) hi)
      ++ [MerkleRange.mk lo i])[q]? = some E' →
      (q = t.empty_intervals.length ∧ E' = MerkleRange.mk lo i)
      ∨ (q = p ∧ E' = MerkleRange.mk (i + 1) hi)
      ∨ (q ≠ p ∧ t.empty_intervals[q]? = some E') := by
    intro q E' hq
    rw [List.getElem?_append] at hq
    by_cases hql : q < (t.empty_intervals.set p (MerkleRange.mk (i + 1) hi)).length
    · rw [if_pos hql, List.getElem?_set] at hq
      by_cases hqp : p = q
      · rw [if_pos hqp, if_pos (hqp ▸ hplen)] at hq
        right; left
        exact ⟨hqp.symm, Option.some.inj hq.symm⟩
      · rw [if_neg hqp] at hq
        right; right
        exact ⟨fun hc => hqp hc.symm, hq⟩
    · rw [if_neg hql] at hq
      rcases Nat.eq_zero_or_pos (q - (t.empty_intervals.set p (MerkleRange.mk (i + 1) hi)).length)
          with hd | hd
      · rw [hd] at hq
        left
        constructor
        · omega
        · simpa using hq.symm
      · rw [List.getElem?_eq_none (by simp only [List.length_singleton]; omega)] at hq
        exact absurd hq (by simp)
  have hfmL : findLast (t.empty_intervals.set p (MerkleRange.mk (i + 1) hi)
      ++ [MerkleRange.mk lo i]) (MerkleRange.mk (i - 1) i)
      = some (t.empty_intervals.length, MerkleRange.mk lo i) := by
    apply findLast_eq_of_unique _ _ _ _ hL1last
    · rw [MerkleRange.eq_true_iff]
      simp only
      omega
    · intro q E' hq he'
      rcases hmemb q E' hq with ⟨hq1, _⟩ | ⟨hq1, hq2⟩ | ⟨hq1, hq2⟩
      · exact hq1
      · subst hq2
        rw [MerkleRange.eq_true_iff] at he'
        simp only at he'
        omega
      · exfalso
        apply hq1
        refine pairwise_unique_cover _ hdisj (i - 1) q p E' (MerkleRange.mk lo hi) hq2 hp ?_ ?_
        · rw [MerkleRange.eq_true_iff] at he'
          simp only at he'
          omega
        · simp only
          omega
  have hfmR : findLast (t.empty_intervals.set p (MerkleRange.mk (i + 1) hi)
      ++ [MerkleRange.mk lo i]) (MerkleRange.mk (i + 1) (i + 2))
      = some (p, MerkleRange.mk (i + 1) hi) := by
    apply findLast_eq_of_unique _ _ _ _ hL1p
    · rw [MerkleRange.eq_true_iff]
      simp only
      omega
    · intro q E' hq he'
      rcases hmemb q E' hq with ⟨hq1, hq2⟩ | ⟨hq1, _⟩ | ⟨hq1, hq2⟩
      · subst hq2
        rw [MerkleRange.eq_true_iff] at he'
        simp only at he'
        omega
      · exact hq1
      · exfalso
        apply hq1
        refine pairwise_unique_cover _ hdisj (i + 1) q p E' (MerkleRange.mk lo hi) hq2 hp ?_ ?_
        · rw [MerkleRange.eq_true_iff] at he'
          simp only at he'
          omega
        · simp only
          omega
  have hempL : t1.node_is_empty t1.height (i - 1) = true := by
    unfold BigMerkleTree.node_is_empty
    rw [rangeNew_self, ht1l]
    refine List.any_eq_true.2 ⟨MerkleRange.mk lo i, by simp, ?_⟩
    rw [MerkleRange.eq_true_iff]
    simp only
    omega
  have hempR : t1.node_is_empty t1.height (i + 1) = true := by
    unfold BigMerkleTree.node_is_empty
    rw [rangeNew_self, ht1l]
    refine List.any_eq_true.2 ⟨MerkleRange.mk (i + 1) hi, ?_, ?_⟩
    · exact List.mem_append.2 (Or.inl (List.mem_set _ p hplen _))
    · rw [MerkleRange.eq_true_iff]
      simp only
      omega
  obtain ⟨t2, ht2ok, ht2l, _, _, _⟩ :=
    removed_both_ok t1 i t.empty_intervals.length p (MerkleRange.mk lo i)
      (MerkleRange.mk (i + 1) hi) (by omega) (by rw [ht1w]; omega) hempL hempR
      (by rw [ht1l]; exact hfmL) (by rw [ht1l]; exact hfmR)
  simp only at ht2l
  have ht2l' : t2.empty_intervals
      = (t.empty_intervals.set p (MerkleRange.mk (i + 1) hi)).eraseIdx p
          ++ [MerkleRange.mk lo hi] := by
    rw [ht2l, ht1l, ← hlen1, set_append_length,
      List.eraseIdx_append_of_lt_length (by rw [hlen1]; exact hplen)]
  refine ⟨t1, t2, ht1ok, ht2ok, ?_, ?_⟩
  · rw [ht2l']
    simp
  · intro E hE he
    rw [ht2l'] at hE
    rcases List.mem_append.1 hE with hl | hr
    · have hEL : E ∈ t.empty_intervals.set p (MerkleRange.mk (i + 1) hi) :=
        List.mem_of_mem_eraseIdx hl
      rcases List.mem_or_eq_of_mem_set hEL with hEL2 | hEe
      · obtain ⟨q, hq⟩ := List.mem_iff_getElem?.1 hEL2
        have hqp : q = p := by
          refine pairwise_unique_cover _ hdisj i q p E (MerkleRange.mk lo hi) hq hp ?_ ?_
          · rw [MerkleRange.eq_true_iff] at he
            simp only at he
            omega
          · simp only
            omega
        subst hqp
        have := hp.symm.trans hq
        exact (Option.some.inj this).symm
      · subst hEe
        rw [MerkleRange.eq_true_iff] at he
        simp only at he
        omega
    · exact List.mem_singleton.1 hr

/-- C5, witness: the round-trip statement applied to a fresh width-4 tree and
the interior index 2 of its seed span `[0, 4)`. -/
theorem c5_round_trip_witness :
    MerkleRange.mk 0 4 ∈ (BigMerkleTree.new 4 1 : BigMerkleTree (ZMod 103)).empty_intervals
      ∧ (BigMerkleTree.new 4 1 : BigMerkleTree (ZMod 103)).empty_intervals.Pairwise RangeDisj
      ∧ (0 < 2 ∧ 2 + 1 < 4 ∧ 4 ≤ (BigMerkleTree.new 4 1 : BigMerkleTree (ZMod 103)).width)
      ∧ (∃ t1 t2, (BigMerkleTree.new 4 1 : BigMerkleTree (ZMod 103)).inserted 2 = .ok t1
          ∧ t1.removed 2 = .ok t2
          ∧ MerkleRange.mk 0 4 ∈ t2.empty_intervals
          ∧ ∀ E ∈ t2.empty_intervals, E.eq (MerkleRange.mk 0 4) = true →
              E = MerkleRange.mk 0 4) :=
  ⟨by decide, by decide, ⟨by decide, by decide, by decide⟩,
    c5_insert_then_remove_round_trips (BigMerkleTree.new 4 1) 0 4 2
      (by decide) (by decide) (by decide) (by decide) (by decide)⟩

end Dusk
